import Mathlib

/-!
Verification of the FoundLab ATI "Trust Ledger Core" against its sources.

The hash-chain ("Veritas Protocol") logic lives in
`client/src/components/ResearchWorkflow.tsx` (`sealBlock`, `sha256`), the
local audit-log service in `client/src/services/auditService.ts` and its
networked variant (`sendToVeritas`, `updateLogWithVerification`) in the
unnamed source part.  SHA-256 itself is a browser primitive
(`crypto.subtle.digest`), so it is modelled as an abstract function
`H : String → String`; properties that depend on collision-freeness take
injectivity of `H` as an explicit hypothesis.
-/

namespace Veritas

/-- `VeritasBlock` from `client/src/types.ts` (lines 100–108).  The ISO
timestamp string is modelled as a `Nat` clock reading; hex digests are
`String`s as in the source. -/
structure VeritasBlock where
  index : Nat
  timestamp : Nat
  eventId : String
  eventType : String
  dataHash : String
  previousChainHash : String
  chainHash : String
  deriving Repr, DecidableEq

/-- The fixed sentinel `previousChainHash` for index 0
(`ResearchWorkflow.tsx` line 59): 64 hex zeros. -/
def ZERO_SENTINEL : String :=
  "0000000000000000000000000000000000000000000000000000000000000000"

/-- The mutable state captured by `handleStartResearch`: the array
`veritasLedger` and the variable `previousChainHash`. -/
structure LedgerState where
  ledger : List VeritasBlock
  previousChainHash : String
  deriving Repr, DecidableEq

/-- Initial state (`ResearchWorkflow.tsx` lines 58–59): empty ledger,
sentinel hash. -/
def initState : LedgerState :=
  { ledger := [], previousChainHash := ZERO_SENTINEL }

/-- One call to `sealBlock` (`ResearchWorkflow.tsx` lines 62–77):
`dataHash = sha256(data)`, `chainHash = sha256(dataHash + previousChainHash)`,
`index = veritasLedger.length`, `eventId = decisionId`, push, advance
`previousChainHash`.  `now` is the value of `new Date().toISOString()`. -/
def sealBlock (H : String → String) (decisionId : String) (st : LedgerState)
    (eventType : String) (data : String) (now : Nat) : LedgerState :=
  let dataHash := H data
  let chainHash := H (dataHash ++ st.previousChainHash)
  let block : VeritasBlock :=
    { index := st.ledger.length
      timestamp := now
      eventId := decisionId
      eventType := eventType
      dataHash := dataHash
      previousChainHash := st.previousChainHash
      chainHash := chainHash }
  { ledger := st.ledger ++ [block], previousChainHash := chainHash }

/-- One requested seal: the `eventType` and `data` arguments of a
`sealBlock` call together with the clock reading at that call. -/
structure SealInput where
  eventType : String
  data : String
  now : Nat
  deriving Repr, DecidableEq

/-- Run a sequence of `sealBlock` calls from an arbitrary state. -/
def runSealsFrom (H : String → String) (decisionId : String)
    (st : LedgerState) : List SealInput → LedgerState
  | [] => st
  | i :: is =>
      runSealsFrom H decisionId (sealBlock H decisionId st i.eventType i.data i.now) is

/-- Run a sequence of `sealBlock` calls from the initial state, as
`handleStartResearch` does. -/
def runSeals (H : String → String) (decisionId : String)
    (inputs : List SealInput) : LedgerState :=
  runSealsFrom H decisionId initState inputs

/-- The chain hash the next block should link to: the last block's
`chainHash`, or `p` for an empty suffix. -/
def lastChainFrom (p : String) : List VeritasBlock → String
  | [] => p
  | b :: rest => lastChainFrom b.chainHash rest

/-- Structural chain-integrity predicate: starting from predecessor hash
`p`, each block stores `p` as `previousChainHash`, hashes correctly, and
the chain continues from its `chainHash`. -/
def ChainOk (H : String → String) : String → List VeritasBlock → Prop
  | _, [] => True
  | p, b :: rest =>
      b.previousChainHash = p ∧ b.chainHash = H (b.dataHash ++ p) ∧
        ChainOk H b.chainHash rest

/-- Index correctness from a starting offset: the block at position `i`
(counting from offset `n`) stores index `n + i`. -/
def IndexOk : Nat → List VeritasBlock → Prop
  | _, [] => True
  | n, b :: rest => b.index = n ∧ IndexOk (n + 1) rest

/-- The running invariant of the seal loop. -/
def Inv (H : String → String) (st : LedgerState) : Prop :=
  ChainOk H ZERO_SENTINEL st.ledger ∧
    st.previousChainHash = lastChainFrom ZERO_SENTINEL st.ledger ∧
    IndexOk 0 st.ledger

/-- Modelled from the spec: the server-side `HashChainLedger.verify`
operation is not part of the sources under `src/` (only the client that
posts to `/veritas/log` is).  Per §4.3 of the spec it "recomputes
`chain_hash` for each block in range from its stored `data_hash` and the
previous block's stored `chain_hash`, comparing against the stored
`chain_hash`", and "returns the first index where recomputation diverges".
`verifyGo` carries the previous block's stored chain hash (the sentinel
for index 0, per the edge-case policy) and the current index. -/
def verifyGo (H : String → String) (prev : String) (idx : Nat) :
    List VeritasBlock → Option Nat
  | [] => none
  | b :: rest =>
      if b.chainHash = H (b.dataHash ++ prev) then
        verifyGo H b.chainHash (idx + 1) rest
      else
        some idx

/-- Modelled from the spec: `verify` over the whole ledger, starting from
the fixed all-zero sentinel; `none` means success, `some i` means
`IntegrityViolation{at_index := i}`. -/
def verify (H : String → String) (l : List VeritasBlock) : Option Nat :=
  verifyGo H ZERO_SENTINEL 0 l

/-- An out-of-band mutation of the stored `dataHash` of the block at
position `k` (the tampering considered by the spec's chain-integrity
property). -/
def setDataHash (l : List VeritasBlock) (k : Nat) (d : String)
    (hk : k < l.length) : List VeritasBlock :=
  l.set k { l.get ⟨k, hk⟩ with dataHash := d }

/-- An out-of-band mutation of the stored `chainHash` of the block at
position `k`. -/
def setChainHash (l : List VeritasBlock) (k : Nat) (c : String)
    (hk : k < l.length) : List VeritasBlock :=
  l.set k { l.get ⟨k, hk⟩ with chainHash := c }

end Veritas

namespace AuditService

/-- `EventType` from `auditService.ts` line 1. -/
inductive EventType where
  | USER_ACTION
  | SYSTEM_EVENT
  | ERROR
  | API_CALL
  deriving Repr, DecidableEq

/-- `AuditEvent` from the networked audit service (unnamed part, lines
3–11); the variant in `client/src/services/auditService.ts` is the same
record without the two optional `veritas` fields (it never sets them, so
it coincides with this model where both stay `none`). -/
structure AuditEvent where
  id : String
  timestamp : String
  type : EventType
  action : String
  details : Option String
  veritas_hash : Option String
  chain_index : Option Nat
  deriving Repr, DecidableEq

/-- `MAX_LOGS` (line 14 of the unnamed part, line 12 of
`auditService.ts`). -/
def MAX_LOGS : Nat := 1000

/-- The `newLog` object built inside `log`: fresh `id` (UUID) and
`timestamp` are environment inputs; the `veritas` fields are absent at
creation. -/
def mkEvent (id ts : String) (ty : EventType) (action : String)
    (details : Option String) : AuditEvent :=
  { id := id
    timestamp := ts
    type := ty
    action := action
    details := details
    veritas_hash := none
    chain_index := none }

/-- The storage update performed by `log` (both variants, lines 25–27 /
77–79): `[newLog, ...existingLogs].slice(0, MAX_LOGS)` written back to
`localStorage`.  The stored list is the model of the
`foundlab_audit_logs` key. -/
def logStep (store : List AuditEvent) (e : AuditEvent) : List AuditEvent :=
  (e :: store).take MAX_LOGS

/-- `clearLogs` (lines 42–44 of `auditService.ts`):
`localStorage.removeItem(STORAGE_KEY)`, after which `getLogs` returns
`[]`. -/
def clearLogs (_store : List AuditEvent) : List AuditEvent := []

/-- `updateLogWithVerification` (unnamed part, lines 17–31): find the
first entry with the given `id` (the `findIndex` call) and set its
`veritas_hash` and `chain_index` in place; if no entry matches
(`findIndex` returns -1), the store is unchanged. -/
def updateLogWithVerification (store : List AuditEvent) (id : String)
    (lock_hash : String) (chain_index : Nat) : List AuditEvent :=
  match store with
  | [] => []
  | l :: rest =>
      if l.id == id then
        { l with veritas_hash := some lock_hash,
                 chain_index := some chain_index } :: rest
      else
        l :: updateLogWithVerification rest id lock_hash chain_index

/-- The possible outcomes of the `fetch` to `/veritas/log` as observed by
`sendToVeritas` (unnamed part, lines 47–63): a 2xx response whose JSON
body may or may not carry a truthy `lock_hash`, a non-2xx response, or a
thrown network error (ledger service unreachable). -/
inductive VeritasResponse where
  | ok (lock_hash : Option String) (chain_index : Nat)
  | httpError
  | unreachable
  deriving Repr, DecidableEq

/-- `sendToVeritas` (unnamed part, lines 33–64), restricted to its effect
on the stored log: only a 2xx response with a truthy `lock_hash` triggers
`updateLogWithVerification`; a non-2xx response, a missing `lock_hash`,
or an unreachable service leaves the store unchanged (the error is only
`console.warn`-ed). -/
def sendToVeritas (store : List AuditEvent) (e : AuditEvent)
    (resp : VeritasResponse) : List AuditEvent :=
  match resp with
  | .ok (some lh) ci => updateLogWithVerification store e.id lh ci
  | .ok none _ => store
  | .httpError => store
  | .unreachable => store

/-- The caller-visible outcome of one `log` call of the networked audit
service: the stored list afterwards, the exception propagated to the
caller (if any), and the console messages emitted instead of errors. -/
structure LogOutcome where
  store : List AuditEvent
  thrown : Option String
  consoleMessages : List String
  deriving Repr, DecidableEq

/-- `log` of the networked audit service (unnamed part, lines 66–86)
together with its error handling: the whole body is wrapped in
`try/catch` whose handler only calls `console.error`, and `sendToVeritas`
wraps its `fetch` in `try/catch` whose handler only calls `console.warn`.
`storageFails` models `localStorage.setItem` throwing; `resp` models the
ledger service's response.  In no case does the function throw to the
caller. -/
def logFull (store : List AuditEvent) (id ts : String) (ty : EventType)
    (action : String) (details : Option String) (storageFails : Bool)
    (resp : VeritasResponse) : LogOutcome :=
  if storageFails then
    { store := store
      thrown := none
      consoleMessages := ["Failed to write audit log"] }
  else
    let e := mkEvent id ts ty action details
    { store := sendToVeritas (logStep store e) e resp
      thrown := none
      consoleMessages :=
        match resp with
        | .unreachable => ["Veritas Observer unreachable (Offline Mode active)"]
        | _ => [] }

end AuditService

namespace Umbrella

/-- Modelled from the spec: the Umbrella KMS (`server/core/umbrella.py`,
referenced by the repository docs) is not among the sources under `src/`.
`KeyRecord.state` per §3 of the spec. -/
inductive KeyState where
  | ACTIVE
  | SHREDDED
  deriving Repr, DecidableEq

/-- Modelled from the spec: a key record; `key` stands for the raw key
bytes, which are overwritten (zeroed) on shred. -/
structure KeyRecord where
  state : KeyState
  key : Nat
  deriving Repr, DecidableEq

/-- Modelled from the spec: the KeyStore maps a `key_id` to its record
(absent if never provisioned). -/
def KeyStore : Type := String → Option KeyRecord

/-- Modelled from the spec: the error taxonomy of §7 relevant to the
crypto gateway. -/
inductive CryptoError where
  | KeyNotFound
  | KeyShredded
  | TagMismatch
  | EncryptionFailure
  deriving Repr, DecidableEq

/-- Modelled from the spec: `EncryptedEnvelope{ciphertext, nonce, key_id,
algorithm_tag}`; `tag` is the authentication tag checked by `decrypt`.
Plaintext bytes are modelled as `List Nat`. -/
structure EncryptedEnvelope where
  ciphertext : List Nat
  nonce : Nat
  key_id : String
  tag : Nat
  deriving Repr, DecidableEq

/-- Modelled from the spec: the symmetric cipher used by the gateway;
each byte is XORed with the raw key, so the operation is an involution. -/
def cipherBytes (key : Nat) (bytes : List Nat) : List Nat :=
  bytes.map (fun b => b ^^^ key)

/-- Modelled from the spec: the authentication tag binding ciphertext and
key. -/
def authTag (key : Nat) (ct : List Nat) : Nat :=
  ct.sum + key

/-- Modelled from the spec: `encrypt(key_id, plaintext)` — fails with
`KeyNotFound` if the key is absent and `KeyShredded` if destroyed;
otherwise produces the envelope. -/
def encrypt (ks : KeyStore) (kid : String) (nonce : Nat) (pt : List Nat) :
    Except CryptoError EncryptedEnvelope :=
  match ks kid with
  | none => .error .KeyNotFound
  | some r =>
      match r.state with
      | .SHREDDED => .error .KeyShredded
      | .ACTIVE =>
          let ct := cipherBytes r.key pt
          .ok { ciphertext := ct, nonce := nonce, key_id := kid,
                tag := authTag r.key ct }

/-- Modelled from the spec: `decrypt(envelope)` — fails with
`KeyNotFound`, `KeyShredded` (crypto-shredded, permanently
unrecoverable), or `TagMismatch` on a tampered ciphertext. -/
def decrypt (ks : KeyStore) (env : EncryptedEnvelope) :
    Except CryptoError (List Nat) :=
  match ks env.key_id with
  | none => .error .KeyNotFound
  | some r =>
      match r.state with
      | .SHREDDED => .error .KeyShredded
      | .ACTIVE =>
          if env.tag = authTag r.key env.ciphertext then
            .ok (cipherBytes r.key env.ciphertext)
          else
            .error .TagMismatch

/-- Modelled from the spec: `shred(key_id)` — irreversibly destroys the
key: the raw bytes are overwritten (zeroed) and the record flipped to
`SHREDDED`; shredding an absent key leaves the store unchanged, and
shredding twice is an idempotent no-op success. -/
def shred (ks : KeyStore) (kid : String) : KeyStore :=
  fun k =>
    if k = kid then
      match ks k with
      | none => none
      | some _ => some { state := .SHREDDED, key := 0 }
    else ks k

end Umbrella

namespace Veritas

theorem lastChainFrom_append (p : String) (l l' : List VeritasBlock) :
    lastChainFrom p (l ++ l') = lastChainFrom (lastChainFrom p l) l' := by
  induction l generalizing p with
  | nil => rfl
  | cons b rest ih => simp [lastChainFrom, ih]

theorem chainOk_append {H : String → String} {p : String}
    {l l' : List VeritasBlock} (h : ChainOk H p l)
    (h' : ChainOk H (lastChainFrom p l) l') : ChainOk H p (l ++ l') := by
  induction l generalizing p with
  | nil => simpa [lastChainFrom] using h'
  | cons b rest ih =>
      obtain ⟨h1, h2, h3⟩ := h
      exact ⟨h1, h2, ih h3 h'⟩

theorem indexOk_append {n : Nat} {l l' : List VeritasBlock}
    (h : IndexOk n l) (h' : IndexOk (n + l.length) l') :
    IndexOk n (l ++ l') := by
  induction l generalizing n with
  | nil => simpa using h'
  | cons b rest ih =>
      obtain ⟨h1, h2⟩ := h
      refine ⟨h1, ih h2 ?_⟩
      simpa [Nat.add_assoc, Nat.add_comm 1 rest.length] using h'

theorem inv_sealBlock {H : String → String} {did : String} {st : LedgerState}
    (h : Inv H st) (ty d : String) (now : Nat) :
    Inv H (sealBlock H did st ty d now) := by
  obtain ⟨hc, hp, hi⟩ := h
  refine ⟨?_, ?_, ?_⟩
  · refine chainOk_append hc ?_
    simp [ChainOk, sealBlock, hp]
  · simp [sealBlock, lastChainFrom_append, lastChainFrom, hp]
  · refine indexOk_append hi ?_
    simp [IndexOk, sealBlock]

theorem inv_runSealsFrom {H : String → String} {did : String}
    {st : LedgerState} (h : Inv H st) (inputs : List SealInput) :
    Inv H (runSealsFrom H did st inputs) := by
  induction inputs generalizing st with
  | nil => exact h
  | cons i is ih => exact ih (inv_sealBlock h i.eventType i.data i.now)

theorem inv_runSeals (H : String → String) (did : String)
    (inputs : List SealInput) : Inv H (runSeals H did inputs) := by
  refine inv_runSealsFrom ?_ inputs
  exact ⟨trivial, rfl, trivial⟩

/-- Pointwise consequences of `ChainOk`: each block hashes correctly. -/
theorem chainOk_get_hash {H : String → String} {p : String}
    {l : List VeritasBlock} (h : ChainOk H p l) :
    ∀ i (hi : i < l.length),
      (l.get ⟨i, hi⟩).chainHash =
        H ((l.get ⟨i, hi⟩).dataHash ++ (l.get ⟨i, hi⟩).previousChainHash) := by
  induction l generalizing p with
  | nil => intro i hi; simp at hi
  | cons b rest ih =>
      obtain ⟨h1, h2, h3⟩ := h
      intro i hi
      cases i with
      | zero => simpa [h1] using h2
      | succ j => exact ih h3 j (Nat.lt_of_succ_lt_succ hi)

/-- Pointwise consequence of `ChainOk`: the first block links to `p`. -/
theorem chainOk_get_zero {H : String → String} {p : String}
    {l : List VeritasBlock} (h : ChainOk H p l) (h0 : 0 < l.length) :
    (l.get ⟨0, h0⟩).previousChainHash = p := by
  cases l with
  | nil => simp at h0
  | cons b rest => exact h.1

/-- Pointwise consequence of `ChainOk`: each later block links to its
predecessor's chain hash. -/
theorem chainOk_get_succ {H : String → String} {p : String}
    {l : List VeritasBlock} (h : ChainOk H p l) :
    ∀ i (hi : i + 1 < l.length),
      (l.get ⟨i + 1, hi⟩).previousChainHash =
        (l.get ⟨i, Nat.lt_of_succ_lt hi⟩).chainHash := by
  induction l generalizing p with
  | nil => intro i hi; simp at hi
  | cons b rest ih =>
      obtain ⟨h1, h2, h3⟩ := h
      intro i hi
      cases i with
      | zero =>
          cases rest with
          | nil => simp at hi
          | cons c rest' => exact h3.1
      | succ j => exact ih h3 j (Nat.lt_of_succ_lt_succ hi)

theorem indexOk_get {n : Nat} {l : List VeritasBlock} (h : IndexOk n l) :
    ∀ i (hi : i < l.length), (l.get ⟨i, hi⟩).index = n + i := by
  induction l generalizing n with
  | nil => intro i hi; simp at hi
  | cons b rest ih =>
      obtain ⟨h1, h2⟩ := h
      intro i hi
      cases i with
      | zero => simpa using h1
      | succ j =>
          have hg : ((b :: rest).get ⟨j + 1, hi⟩) =
              rest.get ⟨j, Nat.lt_of_succ_lt_succ hi⟩ := rfl
          rw [hg, ih h2 j (Nat.lt_of_succ_lt_succ hi)]
          omega

theorem length_sealBlock (H : String → String) (did : String)
    (st : LedgerState) (ty d : String) (now : Nat) :
    (sealBlock H did st ty d now).ledger.length = st.ledger.length + 1 := by
  simp [sealBlock]

theorem length_runSealsFrom (H : String → String) (did : String)
    (st : LedgerState) (inputs : List SealInput) :
    (runSealsFrom H did st inputs).ledger.length =
      st.ledger.length + inputs.length := by
  induction inputs generalizing st with
  | nil => simp [runSealsFrom]
  | cons i is ih =>
      rw [runSealsFrom, ih, length_sealBlock, Nat.add_assoc,
        Nat.add_comm 1 is.length]
      rfl

theorem length_runSeals (H : String → String) (did : String)
    (inputs : List SealInput) :
    (runSeals H did inputs).ledger.length = inputs.length := by
  simp [runSeals, length_runSealsFrom, initState]

theorem map_timestamp_runSealsFrom (H : String → String) (did : String)
    (st : LedgerState) (inputs : List SealInput) :
    (runSealsFrom H did st inputs).ledger.map VeritasBlock.timestamp =
      st.ledger.map VeritasBlock.timestamp ++ inputs.map SealInput.now := by
  induction inputs generalizing st with
  | nil => simp [runSealsFrom]
  | cons i is ih =>
      rw [runSealsFrom, ih]
      simp [sealBlock]

theorem map_eventId_runSealsFrom (H : String → String) (did : String)
    (st : LedgerState) (inputs : List SealInput) :
    (runSealsFrom H did st inputs).ledger.map VeritasBlock.eventId =
      st.ledger.map VeritasBlock.eventId ++
        List.replicate inputs.length did := by
  induction inputs generalizing st with
  | nil => simp [runSealsFrom]
  | cons i is ih =>
      rw [runSealsFrom, ih]
      simp [sealBlock, List.replicate_succ]

theorem map_index_runSealsFrom (H : String → String) (did : String)
    (st : LedgerState) (inputs : List SealInput) :
    (runSealsFrom H did st inputs).ledger.map VeritasBlock.index =
      st.ledger.map VeritasBlock.index ++
        List.range' st.ledger.length inputs.length := by
  induction inputs generalizing st with
  | nil => simp [runSealsFrom]
  | cons i is ih =>
      rw [runSealsFrom, ih]
      simp [sealBlock, List.range'_succ]

/-- C1: every ledger produced by `sealBlock` calls satisfies
`chainHash = H(dataHash ++ previousChainHash)` at every block, block 0's
`previousChainHash` is the 64-hex-zero sentinel, and block `i+1`'s
`previousChainHash` is block `i`'s `chainHash`. -/
theorem sealBlock_chain_integrity (H : String → String) (did : String)
    (inputs : List SealInput) :
    (∀ i (hi : i < (runSeals H did inputs).ledger.length),
      ((runSeals H did inputs).ledger.get ⟨i, hi⟩).chainHash =
        H (((runSeals H did inputs).ledger.get ⟨i, hi⟩).dataHash ++
          ((runSeals H did inputs).ledger.get ⟨i, hi⟩).previousChainHash)) ∧
    (∀ h0 : 0 < (runSeals H did inputs).ledger.length,
      ((runSeals H did inputs).ledger.get ⟨0, h0⟩).previousChainHash =
        ZERO_SENTINEL) ∧
    (∀ i (hi : i + 1 < (runSeals H did inputs).ledger.length),
      ((runSeals H did inputs).ledger.get ⟨i + 1, hi⟩).previousChainHash =
        ((runSeals H did inputs).ledger.get
          ⟨i, Nat.lt_of_succ_lt hi⟩).chainHash) := by
  obtain ⟨hc, -, -⟩ := inv_runSeals H did inputs
  exact ⟨chainOk_get_hash hc, fun h0 => chainOk_get_zero hc h0,
    chainOk_get_succ hc⟩

/-- Witness for C1 on a concrete two-seal run with a concrete hash
function. -/
theorem sealBlock_chain_integrity_witness :
    ((runSeals (fun s => "#" ++ s) "D"
        [⟨"INGEST", "a", 1⟩, ⟨"ORCHESTRATION", "b", 2⟩]).ledger.get
      ⟨1, by decide⟩).previousChainHash =
      ((runSeals (fun s => "#" ++ s) "D"
          [⟨"INGEST", "a", 1⟩, ⟨"ORCHESTRATION", "b", 2⟩]).ledger.get
        ⟨0, by decide⟩).chainHash :=
  (sealBlock_chain_integrity (fun s => "#" ++ s) "D"
    [⟨"INGEST", "a", 1⟩, ⟨"ORCHESTRATION", "b", 2⟩]).2.2 0 (by decide)

/-- C2: after `N` seals the ledger holds exactly `N` blocks whose stored
indices are `0, 1, …, N-1` in order. -/
theorem sealBlock_indices_gap_free (H : String → String) (did : String)
    (inputs : List SealInput) :
    (runSeals H did inputs).ledger.length = inputs.length ∧
      (runSeals H did inputs).ledger.map VeritasBlock.index =
        List.range inputs.length := by
  refine ⟨length_runSeals H did inputs, ?_⟩
  rw [runSeals, map_index_runSealsFrom, List.range_eq_range']
  rfl

/-- Counterexample to C5: two distinct blocks of one run share the same
`eventId` (the run-level `decisionId`), so eventIds are not pairwise
distinct. -/
theorem eventId_not_unique_counterexample :
    ((runSeals (fun s => "#" ++ s) "D"
        [⟨"INGEST", "a", 1⟩, ⟨"ORCHESTRATION", "b", 2⟩]).ledger[0]? ≠
      (runSeals (fun s => "#" ++ s) "D"
        [⟨"INGEST", "a", 1⟩, ⟨"ORCHESTRATION", "b", 2⟩]).ledger[1]?) ∧
    ((runSeals (fun s => "#" ++ s) "D"
        [⟨"INGEST", "a", 1⟩, ⟨"ORCHESTRATION", "b", 2⟩]).ledger[0]?).map
        VeritasBlock.eventId = some "D" ∧
    ((runSeals (fun s => "#" ++ s) "D"
        [⟨"INGEST", "a", 1⟩, ⟨"ORCHESTRATION", "b", 2⟩]).ledger[1]?).map
        VeritasBlock.eventId = some "D" := by
  refine ⟨?_, by decide, by decide⟩
  decide

/-- C5 amended: every block of a run carries the run's `decisionId` as
its `eventId` — the id is generated by the workflow (never caller
supplied), but it is shared by all blocks of the run rather than unique
per block. -/
theorem eventId_is_decisionId (H : String → String) (did : String)
    (inputs : List SealInput) :
    (runSeals H did inputs).ledger.map VeritasBlock.eventId =
      List.replicate inputs.length did := by
  rw [runSeals, map_eventId_runSealsFrom]
  rfl

/-- Counterexample to C6: with clock readings 5 then 3 (a regression),
the stored timestamps are `[5, 3]` — the second block's timestamp is not
clamped to the first's, and the sequence is not non-decreasing. -/
theorem timestamp_not_clamped_counterexample :
    ((runSeals (fun s => "#" ++ s) "D"
        [⟨"A", "a", 5⟩, ⟨"B", "b", 3⟩]).ledger.map VeritasBlock.timestamp =
      [5, 3]) ∧
    ¬ List.Chain' (· ≤ ·)
        ((runSeals (fun s => "#" ++ s) "D"
          [⟨"A", "a", 5⟩, ⟨"B", "b", 3⟩]).ledger.map
          VeritasBlock.timestamp) := by
  have h : (runSeals (fun s => "#" ++ s) "D"
      [⟨"A", "a", 5⟩, ⟨"B", "b", 3⟩]).ledger.map VeritasBlock.timestamp =
        [5, 3] := by decide
  refine ⟨h, ?_⟩
  rw [h, List.chain'_cons]
  simp

/-- C6 amended: the timestamp of each block is exactly the clock reading
at its seal (no clamping); if the clock regresses, the stored timestamps
regress with it. -/
theorem timestamp_is_raw_clock (H : String → String) (did : String)
    (inputs : List SealInput) :
    (runSeals H did inputs).ledger.map VeritasBlock.timestamp =
      inputs.map SealInput.now := by
  rw [runSeals, map_timestamp_runSealsFrom]
  rfl

theorem append_right_cancel_str {s t u : String} (h : s ++ u = t ++ u) :
    s = t := by
  have hd := congrArg String.data h
  rw [String.data_append, String.data_append] at hd
  exact String.ext (List.append_cancel_right hd)

theorem verifyGo_eq_none {H : String → String} {p : String}
    {l : List VeritasBlock} (h : ChainOk H p l) (idx : Nat) :
    verifyGo H p idx l = none := by
  induction l generalizing p idx with
  | nil => rfl
  | cons b rest ih =>
      obtain ⟨h1, h2, h3⟩ := h
      simp only [verifyGo]
      rw [if_pos h2]
      exact ih h3 (idx + 1)

theorem verifyGo_append {H : String → String} {p : String}
    {l : List VeritasBlock} (h : ChainOk H p l) (idx : Nat)
    (l' : List VeritasBlock) :
    verifyGo H p idx (l ++ l') =
      verifyGo H (lastChainFrom p l) (idx + l.length) l' := by
  induction l generalizing p idx with
  | nil => simp [lastChainFrom]
  | cons b rest ih =>
      obtain ⟨h1, h2, h3⟩ := h
      simp only [List.cons_append, verifyGo, lastChainFrom, List.append_eq]
      rw [if_pos h2, ih h3 (idx + 1)]
      congr 1
      simp
      omega

theorem chainOk_take {H : String → String} {p : String}
    {l : List VeritasBlock} (h : ChainOk H p l) (k : Nat) :
    ChainOk H p (l.take k) := by
  induction l generalizing p k with
  | nil => simp [ChainOk]
  | cons b rest ih =>
      cases k with
      | zero => trivial
      | succ j =>
          obtain ⟨h1, h2, h3⟩ := h
          exact ⟨h1, h2, ih h3 j⟩

theorem chainOk_get_prev_take {H : String → String} {p : String}
    {l : List VeritasBlock} (h : ChainOk H p l) :
    ∀ k (hk : k < l.length),
      (l.get ⟨k, hk⟩).previousChainHash = lastChainFrom p (l.take k) := by
  induction l generalizing p with
  | nil => intro k hk; simp at hk
  | cons b rest ih =>
      obtain ⟨h1, h2, h3⟩ := h
      intro k hk
      cases k with
      | zero => simpa [lastChainFrom] using h1
      | succ j =>
          have hg : ((b :: rest).get ⟨j + 1, hk⟩) =
              rest.get ⟨j, Nat.lt_of_succ_lt_succ hk⟩ := rfl
          rw [hg, List.take_succ_cons]
          simp only [lastChainFrom]
          exact ih h3 j _

/-- If the block placed at position `k` fails the recomputation check
against the stored hash of its predecessor, `verify` reports exactly
index `k`. -/
theorem verify_set_of_check_fails {H : String → String}
    {l : List VeritasBlock} (h : ChainOk H ZERO_SENTINEL l) {k : Nat}
    (hk : k < l.length) {b' : VeritasBlock}
    (hfail : b'.chainHash ≠
      H (b'.dataHash ++ lastChainFrom ZERO_SENTINEL (l.take k))) :
    verify H (l.set k b') = some k := by
  rw [List.set_eq_take_append_cons_drop, if_pos hk]
  rw [verify, verifyGo_append (chainOk_take h k) 0]
  have hlen : (l.take k).length = k := by
    rw [List.length_take]
    omega
  rw [hlen]
  simp only [verifyGo]
  rw [if_neg hfail]
  simp

/-- C3: an untampered ledger verifies cleanly; mutating the stored
`dataHash` or `chainHash` of the block at position `k` out of band makes
`verify` report a violation first at exactly index `k` (injectivity of
the hash rules out coincidental matches). -/
theorem verify_detects_single_mutation (H : String → String)
    (hH : Function.Injective H) (did : String) (inputs : List SealInput)
    (k : Nat) (hk : k < (runSeals H did inputs).ledger.length)
    (d' c' : String) :
    verify H (runSeals H did inputs).ledger = none ∧
    (d' ≠ ((runSeals H did inputs).ledger.get ⟨k, hk⟩).dataHash →
      verify H (setDataHash (runSeals H did inputs).ledger k d' hk) =
        some k) ∧
    (c' ≠ ((runSeals H did inputs).ledger.get ⟨k, hk⟩).chainHash →
      verify H (setChainHash (runSeals H did inputs).ledger k c' hk) =
        some k) := by
  obtain ⟨hc, -, -⟩ := inv_runSeals H did inputs
  have horig : ((runSeals H did inputs).ledger.get ⟨k, hk⟩).chainHash =
      H (((runSeals H did inputs).ledger.get ⟨k, hk⟩).dataHash ++
        lastChainFrom ZERO_SENTINEL
          ((runSeals H did inputs).ledger.take k)) := by
    rw [chainOk_get_hash hc k hk, chainOk_get_prev_take hc k hk]
  refine ⟨verifyGo_eq_none hc 0, ?_, ?_⟩
  · intro hd
    rw [setDataHash]
    apply verify_set_of_check_fails hc hk
    intro hEq
    apply hd
    apply append_right_cancel_str (u :=
      lastChainFrom ZERO_SENTINEL ((runSeals H did inputs).ledger.take k))
    apply hH
    exact (horig ▸ hEq).symm
  · intro hcne
    rw [setChainHash]
    apply verify_set_of_check_fails hc hk
    intro hEq
    exact hcne (hEq.trans horig.symm)

theorem prepend_injective : Function.Injective (fun s : String => "#" ++ s) := by
  intro s t h
  have hd := congrArg String.data h
  dsimp only at hd
  rw [String.data_append, String.data_append] at hd
  exact String.ext (List.append_cancel_left hd)

/-- Witness for C3 on a concrete one-seal ledger: the clean ledger
verifies, and each single-field mutation is reported at index 0. -/
theorem verify_detects_single_mutation_witness :
    verify (fun s => "#" ++ s)
        (runSeals (fun s => "#" ++ s) "D" [⟨"A", "a", 1⟩]).ledger = none ∧
    verify (fun s => "#" ++ s)
        (setDataHash (runSeals (fun s => "#" ++ s) "D"
          [⟨"A", "a", 1⟩]).ledger 0 "x" (by decide)) = some 0 ∧
    verify (fun s => "#" ++ s)
        (setChainHash (runSeals (fun s => "#" ++ s) "D"
          [⟨"A", "a", 1⟩]).ledger 0 "y" (by decide)) = some 0 := by
  have h := verify_detects_single_mutation (fun s => "#" ++ s)
    prepend_injective "D" [⟨"A", "a", 1⟩] 0 (by decide) "x" "y"
  exact ⟨h.1, h.2.1 (by decide), h.2.2 (by decide)⟩

end Veritas

namespace AuditService

/-- C10: the stored audit log is capped at `MAX_LOGS = 1000` entries,
newest first: the just-written entry is at position 0; below the cap
nothing is dropped, at the cap the oldest entry is silently dropped. -/
theorem log_cap_newest_first (store : List AuditEvent) (e : AuditEvent) :
    (logStep store e).length ≤ MAX_LOGS ∧
    (logStep store e).head? = some e ∧
    (store.length < MAX_LOGS → logStep store e = e :: store) ∧
    (MAX_LOGS ≤ store.length →
      logStep store e = e :: store.take (MAX_LOGS - 1)) := by
  refine ⟨?_, ?_, ?_, ?_⟩
  · simp [logStep]
  · rw [logStep, show MAX_LOGS = 999 + 1 from rfl, List.take_succ_cons]
    rfl
  · intro hlt
    rw [logStep]
    apply List.take_of_length_le
    simpa using hlt
  · intro hge
    rw [logStep, show MAX_LOGS = 999 + 1 from rfl, List.take_succ_cons]

/-- Witness for C10: an empty store stays whole; a store already at the
cap drops its oldest entry. -/
theorem log_cap_newest_first_witness :
    logStep [] (mkEvent "id1" "t1" .USER_ACTION "LOGIN" none) =
      [mkEvent "id1" "t1" .USER_ACTION "LOGIN" none] ∧
    logStep (List.replicate MAX_LOGS (mkEvent "id0" "t0" .SYSTEM_EVENT "BOOT" none))
        (mkEvent "id1" "t1" .USER_ACTION "LOGIN" none) =
      mkEvent "id1" "t1" .USER_ACTION "LOGIN" none ::
        (List.replicate MAX_LOGS
          (mkEvent "id0" "t0" .SYSTEM_EVENT "BOOT" none)).take (MAX_LOGS - 1) :=
  ⟨(log_cap_newest_first [] (mkEvent "id1" "t1" .USER_ACTION "LOGIN" none)).2.2.1
      (by decide),
    (log_cap_newest_first
        (List.replicate MAX_LOGS (mkEvent "id0" "t0" .SYSTEM_EVENT "BOOT" none))
        (mkEvent "id1" "t1" .USER_ACTION "LOGIN" none)).2.2.2
      (by simp)⟩

/-- Counterexample to C4: the audit service is not append-only —
`clearLogs` deletes a written record, and `updateLogWithVerification`
rewrites a written record's fields. -/
theorem append_only_counterexample :
    logStep [] (mkEvent "id1" "t1" .USER_ACTION "LOGIN" none) ≠ [] ∧
    clearLogs (logStep [] (mkEvent "id1" "t1" .USER_ACTION "LOGIN" none)) =
      [] ∧
    updateLogWithVerification
        (logStep [] (mkEvent "id1" "t1" .USER_ACTION "LOGIN" none))
        "id1" "abc" 0 ≠
      logStep [] (mkEvent "id1" "t1" .USER_ACTION "LOGIN" none) := by
  refine ⟨by decide, by decide, by decide⟩

/-- C4 amended: `sealBlock` itself is append-only — it appends exactly one
block and leaves every previously written block unchanged — but the audit
log store is not: `clearLogs` deletes every stored entry and
`updateLogWithVerification` rewrites a stored entry's sealing fields. -/
theorem append_only_amended :
    (∀ (H : String → String) (did : String) (st : Veritas.LedgerState)
        (ty d : String) (n : Nat),
      ∃ b, (Veritas.sealBlock H did st ty d n).ledger = st.ledger ++ [b]) ∧
    (∀ store : List AuditEvent, clearLogs store = []) ∧
    (∀ (e : AuditEvent) (store : List AuditEvent) (lh : String) (ci : Nat),
      updateLogWithVerification (e :: store) e.id lh ci =
        { e with veritas_hash := some lh, chain_index := some ci } :: store) := by
  refine ⟨?_, fun _ => rfl, ?_⟩
  · intro H did st ty d n
    exact ⟨_, rfl⟩
  · intro e store lh ci
    rw [updateLogWithVerification, if_pos (by simp)]

/-- Counterexample to C7: with the ledger service unreachable, `log`
still creates the local record, throws nothing to the caller, and
downgrades the error to a console message. -/
theorem fail_closed_counterexample :
    (logFull [] "id1" "t1" .USER_ACTION "LOGIN" none false
        .unreachable).store ≠ [] ∧
    (logFull [] "id1" "t1" .USER_ACTION "LOGIN" none false
        .unreachable).thrown = none ∧
    (logFull [] "id1" "t1" .USER_ACTION "LOGIN" none false
        .unreachable).consoleMessages ≠ [] := by
  refine ⟨by decide, by decide, by decide⟩

/-- C7 amended: recording is fail-open, not fail-closed — `log` never
propagates an error to the caller; a storage failure is downgraded to a
`console.error` message (and then nothing is written), and an unreachable
ledger is downgraded to a `console.warn` message while the local
(unsealed) record is still created. -/
theorem log_is_fail_open (store : List AuditEvent) (id ts : String)
    (ty : EventType) (action : String) (details : Option String)
    (sf : Bool) (resp : VeritasResponse) :
    (logFull store id ts ty action details sf resp).thrown = none ∧
    (sf = true →
      (logFull store id ts ty action details sf resp).store = store ∧
      (logFull store id ts ty action details sf resp).consoleMessages =
        ["Failed to write audit log"]) ∧
    (sf = false → resp = .unreachable →
      (logFull store id ts ty action details sf resp).store =
        logStep store (mkEvent id ts ty action details) ∧
      (logFull store id ts ty action details sf resp).consoleMessages =
        ["Veritas Observer unreachable (Offline Mode active)"]) := by
  cases sf with
  | true =>
      refine ⟨rfl, fun _ => ⟨rfl, rfl⟩, ?_⟩
      intro hf
      exact absurd hf (by simp)
  | false =>
      refine ⟨rfl, ?_, ?_⟩
      · intro ht
        exact absurd ht (by simp)
      · intro _ hr
        subst hr
        exact ⟨rfl, rfl⟩

/-- Witness for C7's amended statement: the storage-failure case and the
unreachable-ledger case, at concrete inputs. -/
theorem log_is_fail_open_witness :
    ((logFull [] "i" "t" .USER_ACTION "A" none true .httpError).store = [] ∧
      (logFull [] "i" "t" .USER_ACTION "A" none true
          .httpError).consoleMessages = ["Failed to write audit log"]) ∧
    ((logFull [] "i" "t" .USER_ACTION "A" none false .unreachable).store =
        logStep [] (mkEvent "i" "t" .USER_ACTION "A" none) ∧
      (logFull [] "i" "t" .USER_ACTION "A" none false
          .unreachable).consoleMessages =
        ["Veritas Observer unreachable (Offline Mode active)"]) :=
  ⟨(log_is_fail_open [] "i" "t" .USER_ACTION "A" none true .httpError).2.1 rfl,
    (log_is_fail_open [] "i" "t" .USER_ACTION "A" none false
        .unreachable).2.2 rfl rfl⟩

/-- C8: after one `log` call and the ledger's response, the stored entry
carries `veritas_hash`/`chain_index` exactly when the ledger responded
successfully with a `lock_hash` for it (and then they hold the returned
`lock_hash` and `chain_index`); on any other outcome — including an
unreachable ledger — the entry is still persisted (at position 0) and
carries neither field. -/
theorem sealed_iff_server_success (store : List AuditEvent) (id ts : String)
    (ty : EventType) (action : String) (details : Option String)
    (resp : VeritasResponse) :
    (mkEvent id ts ty action details).veritas_hash = none ∧
    (mkEvent id ts ty action details).chain_index = none ∧
    (∀ lh ci, resp = .ok (some lh) ci →
      (sendToVeritas (logStep store (mkEvent id ts ty action details))
          (mkEvent id ts ty action details) resp).head? =
        some { mkEvent id ts ty action details with
               veritas_hash := some lh, chain_index := some ci }) ∧
    ((∀ lh ci, resp ≠ .ok (some lh) ci) →
      (sendToVeritas (logStep store (mkEvent id ts ty action details))
          (mkEvent id ts ty action details) resp).head? =
        some (mkEvent id ts ty action details)) := by
  have hstep : logStep store (mkEvent id ts ty action details) =
      mkEvent id ts ty action details :: store.take 999 := by
    rw [logStep, show MAX_LOGS = 999 + 1 from rfl, List.take_succ_cons]
  refine ⟨rfl, rfl, ?_, ?_⟩
  · intro lh ci hresp
    subst hresp
    simp only [sendToVeritas]
    rw [hstep, updateLogWithVerification, if_pos (by simp)]
    rfl
  · intro hne
    cases resp with
    | ok olh ci =>
        cases olh with
        | some lh => exact absurd rfl (hne lh ci)
        | none =>
            simp only [sendToVeritas]
            rw [hstep]
            rfl
    | httpError =>
        simp only [sendToVeritas]
        rw [hstep]
        rfl
    | unreachable =>
        simp only [sendToVeritas]
        rw [hstep]
        rfl

/-- Witness for C8: a successful response with a lock hash seals the
entry; an unreachable ledger leaves it unsealed, at concrete inputs. -/
theorem sealed_iff_server_success_witness :
    (sendToVeritas (logStep [] (mkEvent "i" "t" .USER_ACTION "A" none))
        (mkEvent "i" "t" .USER_ACTION "A" none) (.ok (some "L") 3)).head? =
      some { mkEvent "i" "t" .USER_ACTION "A" none with
             veritas_hash := some "L", chain_index := some 3 } ∧
    (sendToVeritas (logStep [] (mkEvent "i" "t" .USER_ACTION "A" none))
        (mkEvent "i" "t" .USER_ACTION "A" none) .unreachable).head? =
      some (mkEvent "i" "t" .USER_ACTION "A" none) :=
  ⟨(sealed_iff_server_success [] "i" "t" .USER_ACTION "A" none
      (.ok (some "L") 3)).2.2.1 "L" 3 rfl,
    (sealed_iff_server_success [] "i" "t" .USER_ACTION "A" none
      .unreachable).2.2.2 (fun _ _ h => VeritasResponse.noConfusion h)⟩

end AuditService

namespace Umbrella

theorem shred_state (ks : KeyStore) (kid : String) (r : KeyRecord)
    (h : ks kid = some r) :
    shred ks kid kid = some { state := .SHREDDED, key := 0 } := by
  unfold shred
  rw [if_pos rfl, h]

/-- C9: crypto-shredding is irreversible — once an envelope was produced
under `kid` and `shred kid` has run, every `decrypt` of that envelope
fails with `KeyShredded`; the key record is left `SHREDDED` with its raw
bytes zeroed, and shredding again keeps it that way (the transition is
one-way). -/
theorem crypto_shred_irreversible (ks : KeyStore) (kid : String)
    (nonce : Nat) (pt : List Nat) (env : EncryptedEnvelope)
    (henc : encrypt ks kid nonce pt = .ok env) :
    decrypt (shred ks kid) env = .error .KeyShredded ∧
    shred ks kid kid = some { state := .SHREDDED, key := 0 } ∧
    shred (shred ks kid) kid kid = some { state := .SHREDDED, key := 0 } := by
  unfold encrypt at henc
  split at henc
  · exact Except.noConfusion henc
  · rename_i r hks
    split at henc
    · exact Except.noConfusion henc
    · have henv : env.key_id = kid := by
        injection henc with h'
        rw [← h']
      have hsh : shred ks kid kid =
          some { state := KeyState.SHREDDED, key := 0 } :=
        shred_state ks kid r hks
      refine ⟨?_, hsh, shred_state (shred ks kid) kid _ hsh⟩
      unfold decrypt
      rw [henv, hsh]

/-- Witness for C9 at a concrete store, key and plaintext. -/
theorem crypto_shred_irreversible_witness :
    decrypt
        (shred (fun k => if k = "k1" then
            some { state := .ACTIVE, key := 5 } else none) "k1")
        { ciphertext := [4, 7], nonce := 9, key_id := "k1", tag := 16 } =
      .error .KeyShredded :=
  (crypto_shred_irreversible
      (fun k => if k = "k1" then some { state := .ACTIVE, key := 5 } else none)
      "k1" 9 [1, 2]
      { ciphertext := [4, 7], nonce := 9, key_id := "k1", tag := 16 }
      (by rfl)).1

end Umbrella
